import Mathlib

/-!
Shallow embedding of the in-memory user store of `store/memory.go`
(`MemoryUserStore` with its five operations `GetAll`, `GetByID`, `Create`,
`Update`, `Delete`), together with proofs of the specification claims.

The Go `map[int]User` is embedded as an association list `List (Int × User)`;
`mapLookup` embeds map indexing (`user, exists := m.users[id]`), `mapInsert`
embeds map assignment (`m.users[id] = user`) and `mapDelete` embeds
`delete(m.users, id)`.  Each store method takes the receiver state and
returns the Go result pair together with the post state; `Except.error
"user not found"` embeds `errors.New("user not found")` and `Except.ok`
embeds a `nil` error.
-/

namespace GoApiStore

/-- `User` from `store/user.go`: ID, Name, Email fields. -/
structure User where
  ID : Int
  Name : String
  Email : String
deriving DecidableEq, Repr

/-- `MemoryUserStore` from `store/memory.go`: the `users` map and the
`nextID` counter (the `sync.RWMutex` has no sequential content). -/
structure MemoryUserStore where
  users : List (Int × User)
  nextID : Int
deriving DecidableEq, Repr

/-- `NewMemoryUserStore`: empty map, `nextID = 1`. -/
def NewMemoryUserStore : MemoryUserStore :=
  ⟨[], 1⟩

/-- Embedding of Go map indexing `m.users[id]`. -/
def mapLookup : List (Int × User) → Int → Option User
  | [], _ => none
  | (k, v) :: t, id => if k = id then some v else mapLookup t id

/-- Embedding of Go map assignment `m.users[id] = v`. -/
def mapInsert : List (Int × User) → Int → User → List (Int × User)
  | [], id, v => [(id, v)]
  | (k, w) :: t, id, v => if k = id then (id, v) :: t else (k, w) :: mapInsert t id v

/-- Embedding of Go `delete(m.users, id)`. -/
def mapDelete : List (Int × User) → Int → List (Int × User)
  | [], _ => []
  | (k, w) :: t, id => if k = id then mapDelete t id else (k, w) :: mapDelete t id

/-- `GetAll` from `store/memory.go`: returns all stored values and a nil
error; the state is unchanged. -/
def GetAll (m : MemoryUserStore) : Except String (List User) × MemoryUserStore :=
  (Except.ok (m.users.map Prod.snd), m)

/-- `GetByID` from `store/memory.go`: looks the id up and returns either the
record or `errors.New("user not found")`. -/
def GetByID (m : MemoryUserStore) (id : Int) : Except String User × MemoryUserStore :=
  match mapLookup m.users id with
  | none => (Except.error "user not found", m)
  | some u => (Except.ok u, m)

/-- `Create` from `store/memory.go`: overwrites the candidate id with
`nextID`, increments the counter, stores the record, returns it. -/
def Create (m : MemoryUserStore) (user : User) : Except String User × MemoryUserStore :=
  let u : User := ⟨m.nextID, user.Name, user.Email⟩
  (Except.ok u, ⟨mapInsert m.users u.ID u, m.nextID + 1⟩)

/-- `Update` from `store/memory.go`: fails when the id is absent; otherwise
forces the candidate id to the parameter and stores it. -/
def Update (m : MemoryUserStore) (id : Int) (user : User) : Except String User × MemoryUserStore :=
  match mapLookup m.users id with
  | none => (Except.error "user not found", m)
  | some _ =>
    let u : User := ⟨id, user.Name, user.Email⟩
    (Except.ok u, ⟨mapInsert m.users id u, m.nextID⟩)

/-- `Delete` from `store/memory.go`: fails when the id is absent; otherwise
removes the entry. -/
def Delete (m : MemoryUserStore) (id : Int) : Except String Unit × MemoryUserStore :=
  match mapLookup m.users id with
  | none => (Except.error "user not found", m)
  | some _ => (Except.ok (), ⟨mapDelete m.users id, m.nextID⟩)

/-- One invocation of any of the five store operations, related to the post
state it leaves behind. -/
inductive Step : MemoryUserStore → MemoryUserStore → Prop where
  | getAll (m : MemoryUserStore) : Step m (GetAll m).2
  | getByID (m : MemoryUserStore) (id : Int) : Step m (GetByID m id).2
  | create (m : MemoryUserStore) (u : User) : Step m (Create m u).2
  | update (m : MemoryUserStore) (id : Int) (u : User) : Step m (Update m id u).2
  | delete (m : MemoryUserStore) (id : Int) : Step m (Delete m id).2

/-- Zero or more operations. -/
def ReachableFrom : MemoryUserStore → MemoryUserStore → Prop :=
  Relation.ReflTransGen Step

/-- States reachable from a fresh store. -/
def Reachable (m : MemoryUserStore) : Prop :=
  ReachableFrom NewMemoryUserStore m

/-- Key-consistency invariant: the counter is at least 1, and every stored
key `k` satisfies `1 ≤ k < nextID` with the record's id field equal to `k`. -/
def Inv (m : MemoryUserStore) : Prop :=
  1 ≤ m.nextID ∧
  ∀ k u, mapLookup m.users k = some u → 1 ≤ k ∧ k < m.nextID ∧ u.ID = k

/-- Fold of `Create` over a list of candidates, oldest first. -/
def createAll : List User → MemoryUserStore → MemoryUserStore
  | [], m => m
  | u :: t, m => createAll t (Create m u).2

/-- The list of `n` consecutive integers starting at `s`. -/
def idRange : Int → Nat → List Int
  | _, 0 => []
  | s, n + 1 => s :: idRange (s + 1) n

/-! ### Association-list lemmas -/

lemma lookup_insert (l : List (Int × User)) (id k : Int) (v : User) :
    mapLookup (mapInsert l id v) k = if k = id then some v else mapLookup l k := by
  induction l with
  | nil =>
    by_cases h : k = id
    · subst h
      simp [mapInsert, mapLookup]
    · have h2 : ¬ id = k := fun hh => h hh.symm
      simp [mapInsert, mapLookup, h, h2]
  | cons hd t ih =>
    obtain ⟨a, b⟩ := hd
    by_cases ha : a = id
    · subst ha
      by_cases hk : k = a
      · subst hk
        simp [mapInsert, mapLookup]
      · have h2 : ¬ a = k := fun hh => hk hh.symm
        simp [mapInsert, mapLookup, hk, h2]
    · by_cases hk : a = k
      · subst hk
        have h2 : ¬ a = id := ha
        simp [mapInsert, mapLookup, h2]
      · simp [mapInsert, mapLookup, ha, hk, ih]

lemma lookup_delete (l : List (Int × User)) (id k : Int) :
    mapLookup (mapDelete l id) k = if k = id then none else mapLookup l k := by
  induction l with
  | nil =>
    by_cases h : k = id <;> simp [mapDelete, mapLookup, h]
  | cons hd t ih =>
    obtain ⟨a, b⟩ := hd
    by_cases ha : a = id
    · subst ha
      by_cases hk : k = a
      · subst hk
        simp [mapDelete, mapLookup, ih]
      · have h2 : ¬ a = k := fun hh => hk hh.symm
        simp [mapDelete, mapLookup, hk, h2, ih]
    · by_cases hk : a = k
      · subst hk
        have h2 : ¬ a = id := ha
        simp [mapDelete, mapLookup, h2]
      · simp [mapDelete, mapLookup, ha, hk, ih]

lemma mapInsert_append (l : List (Int × User)) (id : Int) (v : User)
    (h : mapLookup l id = none) : mapInsert l id v = l ++ [(id, v)] := by
  induction l with
  | nil => simp [mapInsert]
  | cons hd t ih =>
    obtain ⟨a, b⟩ := hd
    by_cases ha : a = id
    · subst ha
      simp [mapLookup] at h
    · simp [mapLookup, ha] at h
      simp [mapInsert, ha, ih h]

/-! ### State-shape lemmas for the five operations -/

lemma getAll_state (m : MemoryUserStore) : (GetAll m).2 = m := rfl

lemma getByID_eq_none {m : MemoryUserStore} {id : Int}
    (hl : mapLookup m.users id = none) :
    GetByID m id = (Except.error "user not found", m) := by
  unfold GetByID
  rw [hl]

lemma getByID_eq_some {m : MemoryUserStore} {id : Int} {w : User}
    (hl : mapLookup m.users id = some w) :
    GetByID m id = (Except.ok w, m) := by
  unfold GetByID
  rw [hl]

lemma getByID_state (m : MemoryUserStore) (id : Int) : (GetByID m id).2 = m := by
  cases hl : mapLookup m.users id with
  | none => rw [getByID_eq_none hl]
  | some w => rw [getByID_eq_some hl]

lemma create_eq (m : MemoryUserStore) (user : User) :
    Create m user =
      (Except.ok ⟨m.nextID, user.Name, user.Email⟩,
       ⟨mapInsert m.users m.nextID ⟨m.nextID, user.Name, user.Email⟩, m.nextID + 1⟩) :=
  rfl

lemma update_eq_none {m : MemoryUserStore} {id : Int} (user : User)
    (hl : mapLookup m.users id = none) :
    Update m id user = (Except.error "user not found", m) := by
  unfold Update
  rw [hl]

lemma update_eq_some {m : MemoryUserStore} {id : Int} {w : User} (user : User)
    (hl : mapLookup m.users id = some w) :
    Update m id user =
      (Except.ok ⟨id, user.Name, user.Email⟩,
       ⟨mapInsert m.users id ⟨id, user.Name, user.Email⟩, m.nextID⟩) := by
  unfold Update
  rw [hl]

lemma delete_eq_none {m : MemoryUserStore} {id : Int}
    (hl : mapLookup m.users id = none) :
    Delete m id = (Except.error "user not found", m) := by
  unfold Delete
  rw [hl]

lemma delete_eq_some {m : MemoryUserStore} {id : Int} {w : User}
    (hl : mapLookup m.users id = some w) :
    Delete m id = (Except.ok (), ⟨mapDelete m.users id, m.nextID⟩) := by
  unfold Delete
  rw [hl]

lemma update_nextID (m : MemoryUserStore) (id : Int) (user : User) :
    (Update m id user).2.nextID = m.nextID := by
  cases hl : mapLookup m.users id with
  | none => rw [update_eq_none user hl]
  | some w => rw [update_eq_some user hl]

lemma delete_nextID (m : MemoryUserStore) (id : Int) :
    (Delete m id).2.nextID = m.nextID := by
  cases hl : mapLookup m.users id with
  | none => rw [delete_eq_none hl]
  | some w => rw [delete_eq_some hl]

/-! ### Counter monotonicity and invariant preservation -/

lemma step_nextID_le {m m' : MemoryUserStore} (h : Step m m') : m.nextID ≤ m'.nextID := by
  cases h with
  | getAll => exact le_refl _
  | getByID id => exact le_of_eq (congrArg MemoryUserStore.nextID (getByID_state m id)).symm
  | create u => exact le_of_lt (lt_add_one _)
  | update id u => exact le_of_eq (update_nextID m id u).symm
  | delete id => exact le_of_eq (delete_nextID m id).symm

lemma reachableFrom_nextID_le {m m' : MemoryUserStore} (h : ReachableFrom m m') :
    m.nextID ≤ m'.nextID := by
  induction h with
  | refl => exact le_refl _
  | tail _ hstep ih => exact le_trans ih (step_nextID_le hstep)

lemma inv_new : Inv NewMemoryUserStore := by
  refine ⟨le_refl 1, fun k u h => ?_⟩
  simp [NewMemoryUserStore, mapLookup] at h

lemma inv_create {m : MemoryUserStore} (hInv : Inv m) (user : User) :
    Inv (Create m user).2 := by
  have h1 := hInv.1
  refine ⟨show (1 : Int) ≤ m.nextID + 1 by linarith, fun k u h => ?_⟩
  have h2 : mapLookup (mapInsert m.users m.nextID ⟨m.nextID, user.Name, user.Email⟩) k = some u := h
  rw [lookup_insert] at h2
  by_cases hk : k = m.nextID
  · subst hk
    rw [if_pos rfl] at h2
    have hu := Option.some.inj h2
    subst hu
    exact ⟨h1, show m.nextID < m.nextID + 1 from lt_add_one _, rfl⟩
  · rw [if_neg hk] at h2
    obtain ⟨ha, hb, hc⟩ := hInv.2 k u h2
    exact ⟨ha, show k < m.nextID + 1 by linarith, hc⟩

lemma inv_update {m : MemoryUserStore} (hInv : Inv m) (id : Int) (user : User) :
    Inv (Update m id user).2 := by
  cases hl : mapLookup m.users id with
  | none =>
    rw [update_eq_none user hl]
    exact hInv
  | some w =>
    rw [update_eq_some user hl]
    obtain ⟨hw1, hw2, _⟩ := hInv.2 id w hl
    refine ⟨hInv.1, fun k u h => ?_⟩
    have h2 : mapLookup (mapInsert m.users id ⟨id, user.Name, user.Email⟩) k = some u := h
    rw [lookup_insert] at h2
    by_cases hk : k = id
    · subst hk
      rw [if_pos rfl] at h2
      have hu := Option.some.inj h2
      subst hu
      exact ⟨hw1, hw2, rfl⟩
    · rw [if_neg hk] at h2
      exact hInv.2 k u h2

lemma inv_delete {m : MemoryUserStore} (hInv : Inv m) (id : Int) :
    Inv (Delete m id).2 := by
  cases hl : mapLookup m.users id with
  | none =>
    rw [delete_eq_none hl]
    exact hInv
  | some w =>
    rw [delete_eq_some hl]
    refine ⟨hInv.1, fun k u h => ?_⟩
    have h2 : mapLookup (mapDelete m.users id) k = some u := h
    rw [lookup_delete] at h2
    by_cases hk : k = id
    · rw [if_pos hk] at h2
      exact absurd h2 (by simp)
    · rw [if_neg hk] at h2
      exact hInv.2 k u h2

lemma inv_step {m m' : MemoryUserStore} (hInv : Inv m) (h : Step m m') : Inv m' := by
  cases h with
  | getAll => exact hInv
  | getByID id => rw [getByID_state]; exact hInv
  | create u => exact inv_create hInv u
  | update id u => exact inv_update hInv id u
  | delete id => exact inv_delete hInv id

lemma inv_reachableFrom {m m' : MemoryUserStore} (hInv : Inv m) (h : ReachableFrom m m') :
    Inv m' := by
  induction h with
  | refl => exact hInv
  | tail _ hstep ih => exact inv_step ih hstep

lemma inv_reachable {m : MemoryUserStore} (h : Reachable m) : Inv m :=
  inv_reachableFrom inv_new h

lemma lookup_nextID_none {m : MemoryUserStore} (hInv : Inv m) :
    mapLookup m.users m.nextID = none := by
  cases hl : mapLookup m.users m.nextID with
  | none => rfl
  | some u => exact absurd (hInv.2 _ _ hl).2.1 (lt_irrefl _)

/-! ### Characterization of a run of creates from a fresh store -/

lemma createAll_spec (us : List User) : ∀ m : MemoryUserStore, Inv m →
    (createAll us m).nextID = m.nextID + us.length ∧
    (createAll us m).users.map Prod.fst = m.users.map Prod.fst ++ idRange m.nextID us.length ∧
    (createAll us m).users.map (fun p => p.2.ID) =
      m.users.map (fun p => p.2.ID) ++ idRange m.nextID us.length ∧
    (createAll us m).users.length = m.users.length + us.length ∧
    Inv (createAll us m) := by
  induction us with
  | nil =>
    intro m hInv
    simp [createAll, idRange, hInv]
  | cons u t ih =>
    intro m hInv
    have hfresh : mapLookup m.users m.nextID = none := lookup_nextID_none hInv
    have hstate : (Create m u).2 =
        ⟨m.users ++ [(m.nextID, ⟨m.nextID, u.Name, u.Email⟩)], m.nextID + 1⟩ := by
      rw [create_eq, mapInsert_append _ _ _ hfresh]
    have hInv1 : Inv (Create m u).2 := inv_create hInv u
    obtain ⟨ih1, ih2, ih3, ih4, ih5⟩ := ih (Create m u).2 hInv1
    have hca : createAll (u :: t) m = createAll t (Create m u).2 := rfl
    rw [hstate] at ih1 ih2 ih3 ih4 ih5
    dsimp only at ih1 ih2 ih3 ih4
    rw [hca, hstate]
    refine ⟨?_, ?_, ?_, ?_, ih5⟩
    · rw [ih1]
      simp only [List.length_cons]
      push_cast
      ring
    · rw [ih2]
      simp [idRange, List.append_assoc]
    · rw [ih3]
      simp [idRange, List.append_assoc]
    · rw [ih4]
      simp only [List.length_append, List.length_cons, List.length_nil]
      omega

/-! ### Concrete states used by the witnesses -/

/-- A sample candidate record. -/
def u0 : User := ⟨0, "A", "a"⟩

/-- The store after one `Create` on a fresh store. -/
def s1 : MemoryUserStore := (Create NewMemoryUserStore u0).2

lemma reachable_s1 : Reachable s1 :=
  Relation.ReflTransGen.single (Step.create NewMemoryUserStore u0)

/-! ### Claim theorems -/

/-- Claim C1: for every store state and every candidate, `Create` ignores the
caller-supplied id, assigns `nextID` (1 on a fresh store), stores the record
under that id, returns the stored record, never fails (the result is always
`Except.ok`), and increments the counter by exactly one. -/
theorem C1_create_assigns_sequential_id :
    (∀ (m : MemoryUserStore) (user : User),
      Create m user =
        (Except.ok ⟨m.nextID, user.Name, user.Email⟩,
         ⟨mapInsert m.users m.nextID ⟨m.nextID, user.Name, user.Email⟩, m.nextID + 1⟩) ∧
      mapLookup (Create m user).2.users m.nextID = some ⟨m.nextID, user.Name, user.Email⟩ ∧
      (Create m user).2.nextID = m.nextID + 1) ∧
    (Create NewMemoryUserStore ⟨999, "X", "y@z.com"⟩).1 = Except.ok ⟨1, "X", "y@z.com"⟩ := by
  constructor
  · intro m user
    refine ⟨create_eq m user, ?_, rfl⟩
    show mapLookup (mapInsert m.users m.nextID ⟨m.nextID, user.Name, user.Email⟩) m.nextID =
      some ⟨m.nextID, user.Name, user.Email⟩
    rw [lookup_insert, if_pos rfl]
  · rfl

/-- Claim C2: `Update id candidate` fails with not-found when the id is absent
and leaves the store unchanged; otherwise it stores the candidate's name and
email under `id`, forces the result id to `id`, returns the updated record,
and leaves the counter unchanged. -/
theorem C2_update_replaces_and_preserves_id :
    ∀ (m : MemoryUserStore) (id : Int) (user : User),
      (mapLookup m.users id = none →
        Update m id user = (Except.error "user not found", m)) ∧
      (mapLookup m.users id ≠ none →
        Update m id user =
          (Except.ok ⟨id, user.Name, user.Email⟩,
           ⟨mapInsert m.users id ⟨id, user.Name, user.Email⟩, m.nextID⟩) ∧
        mapLookup (Update m id user).2.users id = some ⟨id, user.Name, user.Email⟩ ∧
        (Update m id user).2.nextID = m.nextID) := by
  intro m id user
  constructor
  · intro h
    exact update_eq_none user h
  · intro h
    cases hl : mapLookup m.users id with
    | none => exact absurd hl h
    | some w =>
      refine ⟨update_eq_some user hl, ?_, update_nextID m id user⟩
      rw [update_eq_some user hl]
      show mapLookup (mapInsert m.users id ⟨id, user.Name, user.Email⟩) id =
        some ⟨id, user.Name, user.Email⟩
      rw [lookup_insert, if_pos rfl]

theorem C2_update_replaces_and_preserves_id_witness :
    Update ⟨[(1, ⟨1, "A", "a"⟩)], 2⟩ 1 ⟨77, "B", "b"⟩ =
        (Except.ok ⟨1, "B", "b"⟩,
         ⟨mapInsert [(1, ⟨1, "A", "a"⟩)] 1 ⟨1, "B", "b"⟩, 2⟩) ∧
      mapLookup (Update ⟨[(1, ⟨1, "A", "a"⟩)], 2⟩ 1 ⟨77, "B", "b"⟩).2.users 1 =
        some ⟨1, "B", "b"⟩ ∧
      (Update ⟨[(1, ⟨1, "A", "a"⟩)], 2⟩ 1 ⟨77, "B", "b"⟩).2.nextID = 2 :=
  (C2_update_replaces_and_preserves_id ⟨[(1, ⟨1, "A", "a"⟩)], 2⟩ 1 ⟨77, "B", "b"⟩).2
    (by decide)

/-- Claim C3: `Delete id` fails with not-found when the id is absent
(unchanged store); otherwise it removes the record and returns no value, and
afterwards `GetByID`, `Update` and a second `Delete` at that id all fail with
not-found; moreover from any reachable store no later `Create` ever returns
the deleted id again. -/
theorem C3_delete_finality :
    ∀ (m : MemoryUserStore) (id : Int),
      (mapLookup m.users id = none →
        Delete m id = (Except.error "user not found", m)) ∧
      (mapLookup m.users id ≠ none →
        (Delete m id).1 = Except.ok () ∧
        (Delete m id).2.users = mapDelete m.users id ∧
        (GetByID (Delete m id).2 id).1 = Except.error "user not found" ∧
        (∀ user : User, (Update (Delete m id).2 id user).1 = Except.error "user not found") ∧
        (Delete (Delete m id).2 id).1 = Except.error "user not found") ∧
      (Reachable m → mapLookup m.users id ≠ none →
        ∀ m' : MemoryUserStore, ReachableFrom (Delete m id).2 m' →
          ∀ user r : User, (Create m' user).1 = Except.ok r → r.ID ≠ id) := by
  intro m id
  refine ⟨fun h => delete_eq_none h, fun h => ?_, fun hr h m' hreach user r hcr => ?_⟩
  · obtain ⟨w, hl⟩ : ∃ w, mapLookup m.users id = some w := by
      cases hlk : mapLookup m.users id with
      | none => exact absurd hlk h
      | some w => exact ⟨w, rfl⟩
    have hnone : mapLookup (Delete m id).2.users id = none := by
      rw [delete_eq_some hl]
      show mapLookup (mapDelete m.users id) id = none
      rw [lookup_delete, if_pos rfl]
    refine ⟨?_, ?_, ?_, fun user => ?_, ?_⟩
    · rw [delete_eq_some hl]
    · rw [delete_eq_some hl]
    · rw [getByID_eq_none hnone]
    · rw [update_eq_none user hnone]
    · rw [delete_eq_none hnone]
  · obtain ⟨w, hl⟩ : ∃ w, mapLookup m.users id = some w := by
      cases hlk : mapLookup m.users id with
      | none => exact absurd hlk h
      | some w => exact ⟨w, rfl⟩
    have hInv := inv_reachable hr
    have hid_lt : id < m.nextID := (hInv.2 id w hl).2.1
    have hmono : (Delete m id).2.nextID ≤ m'.nextID := reachableFrom_nextID_le hreach
    rw [delete_nextID] at hmono
    rw [create_eq] at hcr
    have hr2 : r = ⟨m'.nextID, user.Name, user.Email⟩ := (Except.ok.inj hcr).symm
    subst hr2
    intro heq
    have h3 : m'.nextID = id := heq
    linarith

theorem C3_delete_finality_witness :
    (⟨2, "C", "c"⟩ : User).ID ≠ 1 :=
  (C3_delete_finality s1 1).2.2 reachable_s1 (by decide) (Delete s1 1).2
    Relation.ReflTransGen.refl ⟨5, "C", "c"⟩ ⟨2, "C", "c"⟩ (by rfl)

/-- Claim C4: the `nextID` counter is non-decreasing across every single
operation and every sequence of operations, and the ids returned by two
successive `Create` calls (with any operations in between) are strictly
increasing, hence pairwise distinct. -/
theorem C4_created_ids_strictly_increase :
    (∀ m m' : MemoryUserStore, Step m m' → m.nextID ≤ m'.nextID) ∧
    (∀ m m' : MemoryUserStore, ReachableFrom m m' → m.nextID ≤ m'.nextID) ∧
    (∀ (m : MemoryUserStore) (u : User) (m' : MemoryUserStore) (v r w : User),
      ReachableFrom (Create m u).2 m' →
      (Create m u).1 = Except.ok r →
      (Create m' v).1 = Except.ok w →
      r.ID < w.ID ∧ r.ID ≠ w.ID) := by
  refine ⟨fun m m' h => step_nextID_le h, fun m m' h => reachableFrom_nextID_le h,
    fun m u m' v r w hreach hc1 hc2 => ?_⟩
  rw [create_eq] at hc1 hc2
  have hr : r = ⟨m.nextID, u.Name, u.Email⟩ := (Except.ok.inj hc1).symm
  have hw : w = ⟨m'.nextID, v.Name, v.Email⟩ := (Except.ok.inj hc2).symm
  subst hr
  subst hw
  have hmono : (Create m u).2.nextID ≤ m'.nextID := reachableFrom_nextID_le hreach
  have hstep : (Create m u).2.nextID = m.nextID + 1 := rfl
  rw [hstep] at hmono
  have hlt : m.nextID < m'.nextID := by linarith
  exact ⟨hlt, ne_of_lt hlt⟩

theorem C4_created_ids_strictly_increase_witness :
    (⟨1, "A", "a"⟩ : User).ID < (⟨2, "B", "b"⟩ : User).ID ∧
      (⟨1, "A", "a"⟩ : User).ID ≠ (⟨2, "B", "b"⟩ : User).ID :=
  C4_created_ids_strictly_increase.2.2 NewMemoryUserStore u0 s1 ⟨0, "B", "b"⟩
    ⟨1, "A", "a"⟩ ⟨2, "B", "b"⟩ Relation.ReflTransGen.refl (by rfl) (by rfl)

/-- Claim C5: `GetByID` returns the stored record when the id is present,
fails with not-found exactly when the id is absent, never changes the store,
and on every reachable store fails for every id ≤ 0. -/
theorem C5_get_not_found_exactly_when_absent :
    ∀ (m : MemoryUserStore) (id : Int),
      ((GetByID m id).1 = Except.error "user not found" ↔ mapLookup m.users id = none) ∧
      (∀ u : User, mapLookup m.users id = some u → GetByID m id = (Except.ok u, m)) ∧
      (GetByID m id).2 = m ∧
      (Reachable m → id ≤ 0 → (GetByID m id).1 = Except.error "user not found") := by
  intro m id
  refine ⟨⟨?_, ?_⟩, fun u h => getByID_eq_some h, getByID_state m id, fun hr hid => ?_⟩
  · intro h
    cases hl : mapLookup m.users id with
    | none => rfl
    | some w =>
      rw [getByID_eq_some hl] at h
      simp at h
  · intro h
    rw [getByID_eq_none h]
  · have hInv := inv_reachable hr
    cases hl : mapLookup m.users id with
    | none => rw [getByID_eq_none hl]
    | some w =>
      have h1 := (hInv.2 id w hl).1
      linarith

theorem C5_get_not_found_exactly_when_absent_witness :
    (GetByID s1 0).1 = Except.error "user not found" :=
  (C5_get_not_found_exactly_when_absent s1 0).2.2.2 reachable_s1 (by decide)

/-- Claim C6: `GetAll` never fails and returns exactly the stored records;
on a fresh store it returns the empty list, and after `N` creates on a fresh
store it returns `N` records whose ids are exactly the assigned ids
`1, …, N`. -/
theorem C6_list_complete :
    (∀ m : MemoryUserStore, GetAll m = (Except.ok (m.users.map Prod.snd), m)) ∧
    (GetAll NewMemoryUserStore).1 = Except.ok ([] : List User) ∧
    (∀ us : List User,
      ∃ l : List User,
        (GetAll (createAll us NewMemoryUserStore)).1 = Except.ok l ∧
        l.length = us.length ∧
        l.map User.ID = idRange 1 us.length) := by
  refine ⟨fun m => rfl, rfl, fun us => ?_⟩
  obtain ⟨h1, h2, h3, h4, h5⟩ := createAll_spec us NewMemoryUserStore inv_new
  refine ⟨(createAll us NewMemoryUserStore).users.map Prod.snd, rfl, ?_, ?_⟩
  · rw [List.length_map]
    simpa [NewMemoryUserStore] using h4
  · rw [List.map_map]
    simpa [NewMemoryUserStore, Function.comp] using h3

/-- Claim C7: round trip — when `Create m user` returns a record `r`, reading
`r.ID` from the post state returns `r`, whose name and email are the
candidate's and whose id is the assigned `nextID`. -/
theorem C7_create_get_round_trip :
    ∀ (m : MemoryUserStore) (user r : User),
      (Create m user).1 = Except.ok r →
      (GetByID (Create m user).2 r.ID).1 = Except.ok r ∧
      r.Name = user.Name ∧ r.Email = user.Email ∧ r.ID = m.nextID := by
  intro m user r h
  rw [create_eq] at h
  have hr : r = ⟨m.nextID, user.Name, user.Email⟩ := (Except.ok.inj h).symm
  subst hr
  refine ⟨?_, rfl, rfl, rfl⟩
  have hl : mapLookup (Create m user).2.users m.nextID =
      some ⟨m.nextID, user.Name, user.Email⟩ := by
    show mapLookup (mapInsert m.users m.nextID ⟨m.nextID, user.Name, user.Email⟩) m.nextID =
      some ⟨m.nextID, user.Name, user.Email⟩
    rw [lookup_insert, if_pos rfl]
  show (GetByID (Create m user).2 m.nextID).1 = Except.ok ⟨m.nextID, user.Name, user.Email⟩
  rw [getByID_eq_some hl]

theorem C7_create_get_round_trip_witness :
    (GetByID (Create NewMemoryUserStore ⟨999, "X", "y@z.com"⟩).2
        (⟨1, "X", "y@z.com"⟩ : User).ID).1 = Except.ok ⟨1, "X", "y@z.com"⟩ ∧
      (⟨1, "X", "y@z.com"⟩ : User).Name = (⟨999, "X", "y@z.com"⟩ : User).Name ∧
      (⟨1, "X", "y@z.com"⟩ : User).Email = (⟨999, "X", "y@z.com"⟩ : User).Email ∧
      (⟨1, "X", "y@z.com"⟩ : User).ID = NewMemoryUserStore.nextID :=
  C7_create_get_round_trip NewMemoryUserStore ⟨999, "X", "y@z.com"⟩
    ⟨1, "X", "y@z.com"⟩ (by rfl)

/-- Claim C8: whenever `GetByID`, `Update` or `Delete` fails with not-found,
the post state equals the pre state — no partial modification. -/
theorem C8_failed_ops_preserve_state :
    ∀ (m : MemoryUserStore) (id : Int) (user : User),
      ((GetByID m id).1 = Except.error "user not found" → (GetByID m id).2 = m) ∧
      ((Update m id user).1 = Except.error "user not found" → (Update m id user).2 = m) ∧
      ((Delete m id).1 = Except.error "user not found" → (Delete m id).2 = m) := by
  intro m id user
  refine ⟨fun _ => getByID_state m id, fun h => ?_, fun h => ?_⟩
  · cases hl : mapLookup m.users id with
    | none => rw [update_eq_none user hl]
    | some w =>
      rw [update_eq_some user hl] at h
      simp at h
  · cases hl : mapLookup m.users id with
    | none => rw [delete_eq_none hl]
    | some w =>
      rw [delete_eq_some hl] at h
      simp at h

theorem C8_failed_ops_preserve_state_witness :
    (Delete NewMemoryUserStore 5).2 = NewMemoryUserStore :=
  (C8_failed_ops_preserve_state NewMemoryUserStore 5 u0).2.2 (by rfl)

/-- Claim C10: key-consistency invariant — every reachable store satisfies
`Inv` (each stored key `k` has `1 ≤ k < nextID` and the record id equals the
key), and every single operation preserves `Inv`. -/
theorem C10_key_consistency :
    (∀ m : MemoryUserStore, Reachable m → Inv m) ∧
    (∀ m m' : MemoryUserStore, Inv m → Step m m' → Inv m') :=
  ⟨fun _ h => inv_reachable h, fun _ _ hInv hs => inv_step hInv hs⟩

theorem C10_key_consistency_witness :
    (1 : Int) ≤ 1 ∧ (1 : Int) < s1.nextID ∧ (⟨1, "A", "a"⟩ : User).ID = 1 :=
  (C10_key_consistency.1 s1 reachable_s1).2 1 ⟨1, "A", "a"⟩ (by rfl)

end GoApiStore
